import Mathlib

/-!
# Verification of the semmap core: document model, parser, serializer, reconciliation

Shallow embedding of the Rust sources:
* `src/types.rs`      — document model (`SemmapFile`, `Layer`, `FileEntry`, …)
* `src/parser.rs`     — line-oriented parser with its five regular expressions
* `src/formatter.rs`  — markdown serializer (`to_markdown`)
* `src/commands/update_helpers.rs` — reconciliation helpers
  (`add_new_entries`, `remove_deleted_entries`)
* `src/path_utils.rs` — `prefix_path`, `strip_prefix_for_lookup`

Strings are Lean `String`s; operations are defined over their character
lists (`String.data`) so that equalities reduce.  Machine integers: layer
numbers are `u8` in Rust; they are modelled as `Nat`, with the
`str::parse::<u8>` range check made explicit (`u8OrZero`).  No arithmetic
is performed on them, so no further overflow modelling is needed.

The regular expressions are modelled operationally, reproducing the
leftmost-first (backtracking-preference) capture semantics of the `regex`
crate for the five concrete patterns used by the parser (greedy `\s+`/`\s*`
prefer the longest run, the lazy `(.+?)` prefers the shortest capture).
-/

namespace Semmap

/-! ## Character utilities

`isWs` is the Unicode `White_Space` class, which is both what `\s` matches
in the `regex` crate and what `str::trim` / `char::is_whitespace` use. -/

def isWs (c : Char) : Bool :=
  c = ' ' || c = '\t' || c = '\n' || c = '\r' || c = '\x0b' || c = '\x0c' ||
  c = '\u0085' || c = '\u00A0' || c = '\u1680' ||
  ('\u2000' ≤ c && c ≤ '\u200A') || c = '\u2028' || c = '\u2029' ||
  c = '\u202F' || c = '\u205F' || c = '\u3000'

def dropWs : List Char → List Char
  | [] => []
  | c :: cs => if isWs c then dropWs cs else c :: cs

def wsRun : List Char → Nat
  | [] => 0
  | c :: cs => if isWs c then wsRun cs + 1 else 0

/-- `str::trim`: drop leading and trailing whitespace. -/
def trimList (l : List Char) : List Char :=
  (dropWs ((dropWs l).reverse)).reverse

/-- Boolean "starts with" on character lists (`str::starts_with`). -/
def listPre : List Char → List Char → Bool
  | [], _ => true
  | _ :: _, [] => false
  | a :: as, b :: bs => a = b && listPre as bs

/-- Does `pat` occur as a contiguous sub-list of `l`? (`str::contains`). -/
def containsSub (pat : List Char) : List Char → Bool
  | [] => listPre pat []
  | l@(_ :: rest) => listPre pat l || containsSub pat rest

def strStartsWith (pre s : String) : Bool := listPre pre.data s.data

/-- `str::lines`: split at `'\n'`, no trailing empty line, and strip a
single `'\r'` from the end of every `'\n'`-terminated segment. -/
def splitNl : List Char → List (List Char)
  | [] => [[]]
  | c :: cs =>
      if c = '\n' then [] :: splitNl cs
      else
        match splitNl cs with
        | [] => [[c]]
        | p :: ps => (c :: p) :: ps

def stripCr (l : List Char) : List Char :=
  match l.getLast? with
  | some '\r' => l.dropLast
  | _ => l

def toLines (s : String) : List String :=
  let segs := splitNl s.data
  let init := (segs.dropLast.map stripCr).map fun l => (⟨l⟩ : String)
  match segs.getLast? with
  | some last => if last.isEmpty then init else init ++ [(⟨last⟩ : String)]
  | none => init

/-! ## The parser's regular expressions, modelled operationally

Each `…Capture` function reproduces the capture produced by
`Regex::captures` for one of the five patterns compiled in
`src/parser.rs` (the `or_else` fallback patterns there are dead code:
they are tried only if the first pattern fails to *compile*). -/

def isDash (c : Char) : Bool := c = '—' || c = '-'

def smLit : List Char := "Semantic Map".data

/-- Does a suffix match `\s*[—-]\s*Semantic Map` (as a prefix of the
suffix)?  The dash is not whitespace, so both `\s*` are forced to the
maximal whitespace run. -/
def okTitleTail (u : List Char) : Bool :=
  match dropWs u with
  | [] => false
  | d :: v => isDash d && listPre smLit (dropWs v)

/-- Lazy `(.+?)`: the shortest non-empty capture whose tail matches. -/
def titleFirstJ : List Char → Option (List Char)
  | [] => none
  | c :: v => if okTitleTail v then some [c] else (titleFirstJ v).map (c :: ·)

/-- Greedy `\s+`: try the longest whitespace run first, backtrack down. -/
def titleSearch (t : List Char) : Nat → Option (List Char)
  | 0 => none
  | i + 1 =>
      match titleFirstJ (t.drop (i + 1)) with
      | some cap => some cap
      | none => titleSearch t i

/-- Capture group of `^#\s+(.+?)\s*[—-]\s*Semantic Map`. -/
def titleCapture (s : String) : Option String :=
  match s.data with
  | '#' :: t => (titleSearch t (wsRun t)).map fun l => (⟨l⟩ : String)
  | _ => none

def purLit : List Char := "**Purpose:**".data

/-- `\s*(.+)` applied to the rest of a line: greedy `\s*` takes the maximal
whitespace run, backing off one character when `(.+)` would be empty. -/
def capAfterWsStar (r : List Char) : Option (List Char) :=
  match r with
  | [] => none
  | _ :: _ =>
      match dropWs r with
      | [] => (r.getLast?).map fun c => [c]
      | d => some d

def purScan : List Char → Option (List Char)
  | [] => none
  | l@(_ :: rest) =>
      if listPre purLit l then
        match capAfterWsStar (l.drop purLit.length) with
        | some cap => some cap
        | none => purScan rest
      else purScan rest

/-- Capture group of the unanchored `\*\*Purpose:\*\*\s*(.+)`. -/
def purposeCapture (s : String) : Option String :=
  (purScan s.data).map fun l => (⟨l⟩ : String)

def takeAZ : List Char → List Char
  | [] => []
  | c :: cs => if 'A' ≤ c && c ≤ 'Z' then c :: takeAZ cs else []

/-- `\s+(.+)`: at least one whitespace character, then `(.+)` as above. -/
def capAfterWsPlus (r : List Char) : Option (List Char) :=
  if wsRun r = 0 then none
  else
    match dropWs r with
    | [] => if 2 ≤ wsRun r then (r.getLast?).map fun c => [c] else none
    | d => some d

def legScan : List Char → Option (List Char × List Char)
  | [] => none
  | '`' :: '[' :: rest =>
      let tag := takeAZ rest
      let after := rest.drop tag.length
      if tag.isEmpty then legScan ('[' :: rest)
      else
        match after with
        | ']' :: '`' :: tl =>
            match capAfterWsPlus tl with
            | some cap => some (tag, cap)
            | none => legScan ('[' :: rest)
        | _ => legScan ('[' :: rest)
  | _ :: rest => legScan rest

/-- Capture groups of the unanchored `` `\[([A-Z]+)\]`\s+(.+) ``. -/
def legendCapture (s : String) : Option (String × String) :=
  (legScan s.data).map fun p => ((⟨p.1⟩ : String), (⟨p.2⟩ : String))

def layerLit : List Char := "Layer".data

def takeDigits : List Char → List Char
  | [] => []
  | c :: cs => if '0' ≤ c && c ≤ '9' then c :: takeDigits cs else []

/-- Capture groups of `^##\s+Layer\s+(\d+)\s*[—-]\s*(.+)`: the digit run
and the raw (untrimmed) name capture. -/
def layerCapture (s : String) : Option (List Char × List Char) :=
  match s.data with
  | '#' :: '#' :: t =>
      if wsRun t = 0 then none
      else
        let t1 := t.drop (wsRun t)
        if listPre layerLit t1 then
          let t2 := t1.drop layerLit.length
          if wsRun t2 = 0 then none
          else
            let t3 := t2.drop (wsRun t2)
            let ds := takeDigits t3
            if ds.isEmpty then none
            else
              let t4 := t3.drop ds.length
              match dropWs t4 with
              | d :: v =>
                  if isDash d then
                    match capAfterWsStar v with
                    | some cap => some (ds, cap)
                    | none => none
                  else none
              | [] => none
        else none
  | _ => none

/-- Capture group of `` ^`([^`]+)` ``. -/
def pathCapture (s : String) : Option String :=
  match s.data with
  | '`' :: t =>
      let run := t.takeWhile fun c => c ≠ '`'
      if run.isEmpty then none
      else if listPre ['`'] (t.drop run.length) then some (⟨run⟩ : String)
      else none
  | _ => none

def digitsToNat (l : List Char) : Nat :=
  l.foldl (fun a c => a * 10 + (c.toNat - '0'.toNat)) 0

/-- `caps.get(1).and_then(parse::<u8>).ok().unwrap_or(0)`: a digit run
whose value does not fit in `u8` parses as `0`. -/
def u8OrZero (ds : List Char) : Nat :=
  if digitsToNat ds ≤ 255 then digitsToNat ds else 0

/-! ## Document model (`src/types.rs`) -/

structure Description where
  what : String
  why : String
deriving DecidableEq

structure FileEntry where
  path : String
  description : Description
  exports : Option (List String)
  touch : Option String
deriving DecidableEq

structure Layer where
  number : Nat
  name : String
  entries : List FileEntry
deriving DecidableEq

structure LegendEntry where
  tag : String
  definition : String
deriving DecidableEq

structure SemmapFile where
  project_name : String
  purpose : String
  legend : List LegendEntry
  layers : List Layer
deriving DecidableEq

structure ParseError where
  line : Nat
  message : String
deriving DecidableEq

def allEntries (d : SemmapFile) : List FileEntry :=
  (d.layers.map Layer.entries).flatten

/-- `SemmapFile::all_paths`. -/
def all_paths (d : SemmapFile) : List String :=
  (allEntries d).map FileEntry.path

def pathLayerPairs (d : SemmapFile) : List (String × Nat) :=
  (d.layers.map fun l => l.entries.map fun e => (e.path, l.number)).flatten

/-- `SemmapFile::path_to_layer` as a lookup function: the `HashMap` built
by insertion makes the *last* write win, i.e. lookup in the reversed
association list. -/
def path_to_layer (d : SemmapFile) (q : String) : Option Nat :=
  ((pathLayerPairs d).reverse).lookup q

def entryPairs (d : SemmapFile) : List (String × FileEntry) :=
  (d.layers.map fun l => l.entries.map fun e => (e.path, e)).flatten

/-- The `entry_map` of `add_new_entries`: `HashMap` collected from all
`(path, entry)` pairs, last insertion winning. -/
def entryLookup (d : SemmapFile) (q : String) : Option FileEntry :=
  ((entryPairs d).reverse).lookup q

/-! ## Parser (`src/parser.rs`) -/

/-- `split_once(". ")`: first occurrence of the two-character sequence. -/
def splitDot : List Char → Option (List Char × List Char)
  | [] => none
  | c :: cs =>
      if c = '.' && listPre [' '] cs then some ([], cs.drop 1)
      else (splitDot cs).map fun p => (c :: p.1, p.2)

/-- `parser::split_description`. -/
def split_description (s : String) : String × String :=
  match splitDot s.data with
  | some (a, b) => ((⟨a ++ ['.']⟩ : String), (⟨b⟩ : String))
  | none => (s, "")

def exportsMarker : List Char := "→ Exports:".data

def touchMarker : List Char := "→ Touch:".data

def splitComma : List Char → List (List Char)
  | [] => [[]]
  | c :: cs =>
      if c = ',' then [] :: splitComma cs
      else
        match splitComma cs with
        | [] => [[c]]
        | p :: ps => (c :: p) :: ps

/-- `rest.trim().split(',').map(|s| s.trim().into()).collect()`. -/
def parseExports (r : List Char) : List String :=
  (splitComma (trimList r)).map fun p => (⟨trimList p⟩ : String)

/-- Body loop of `parse_file_entry`: returns the trimmed description
lines, the exports and touch values (later occurrences overwrite earlier
ones, hence the "keep the recursive result if set" shape), and the
unconsumed lines. -/
def entryBody : List String → List String × Option (List String) × Option String × List String
  | [] => ([], none, none, [])
  | l :: ls =>
      let t := trimList l.data
      if t.isEmpty || listPre ['`'] t || listPre "## ".data t then
        ([], none, none, l :: ls)
      else if listPre exportsMarker t then
        let r := entryBody ls
        (r.1, some (match r.2.1 with
                    | some e => e
                    | none => parseExports (t.drop exportsMarker.length)),
         r.2.2.1, r.2.2.2)
      else if listPre touchMarker t then
        let r := entryBody ls
        (r.1, r.2.1, some (match r.2.2.1 with
                           | some x => x
                           | none => (⟨trimList (t.drop touchMarker.length)⟩ : String)),
         r.2.2.2)
      else
        let r := entryBody ls
        ((⟨t⟩ : String) :: r.1, r.2.1, r.2.2.1, r.2.2.2)

/-- `desc_parts.join(" ")`. -/
def joinSpace : List String → String
  | [] => ""
  | [x] => x
  | x :: xs => x ++ " " ++ joinSpace xs

/-- `parser::parse_file_entry`. -/
def parse_file_entry (path : String) (ls : List String) : FileEntry × List String :=
  let r := entryBody ls
  let d := split_description (joinSpace r.1)
  (⟨path, ⟨d.1, d.2⟩, r.2.1, r.2.2.1⟩, r.2.2.2)

/-- Entry loop of `parse_layer_entries`.  The `fuel` argument only bounds
the loop for termination; every iteration consumes at least one line, and
all call sites pass at least `lines.length + 1`, so the bound is never
reached and the function agrees with the Rust cursor loop. -/
def parse_layer_entries : Nat → List String → List FileEntry × List String
  | 0, ls => ([], ls)
  | _ + 1, [] => ([], [])
  | fuel + 1, l :: ls =>
      if strStartsWith "## Layer" l || strStartsWith "# " l then ([], l :: ls)
      else
        match pathCapture l with
        | some p =>
            let er := parse_file_entry p ls
            let r := parse_layer_entries fuel er.2
            (er.1 :: r.1, r.2)
        | none => parse_layer_entries fuel ls

/-- `parser::parse_layers` (fuelled like `parse_layer_entries`). -/
def parse_layers : Nat → List String → List Layer
  | 0, _ => []
  | _ + 1, [] => []
  | fuel + 1, l :: ls =>
      match layerCapture l with
      | some (ds, rawName) =>
          let r := parse_layer_entries (ls.length + 1) ls
          ⟨u8OrZero ds, (⟨trimList rawName⟩ : String), r.1⟩ :: parse_layers fuel r.2
      | none => parse_layers fuel ls

/-- `parser::parse_legend`. -/
def parse_legend : List String → List LegendEntry × List String
  | [] => ([], [])
  | l :: ls =>
      if strStartsWith "## Layer" l then ([], l :: ls)
      else
        match legendCapture l with
        | some (t, d) =>
            let r := parse_legend ls
            (⟨t, d⟩ :: r.1, r.2)
        | none => parse_legend ls

/-- Loop of `parse_header`: on every line the title and purpose captures
overwrite the accumulators, then the loop stops at a line starting with
`"## Legend"` (and only there). -/
def headerLoop : List String → String → String → String × String × List String
  | [], n, p => (n, p, [])
  | l :: ls, n, p =>
      let n1 := (titleCapture l).getD n
      let p1 := (purposeCapture l).getD p
      if strStartsWith "## Legend" l then (n1, p1, l :: ls)
      else headerLoop ls n1 p1

/-- `parser::parse_header`. -/
def parse_header (lines : List String) :
    Except ParseError (String × String × List String) :=
  let r := headerLoop lines "" ""
  if r.1 = "" then
    .error ⟨1, "Missing project title (# name — Semantic Map)"⟩
  else .ok r

/-- `parser::parse`. -/
def parse (content : String) : Except ParseError SemmapFile :=
  let lines := toLines content
  match parse_header lines with
  | .error e => .error e
  | .ok (n, p, rest) =>
      let lg := parse_legend rest
      .ok ⟨n, p, lg.1, parse_layers (lg.2.length + 1) lg.2⟩

/-! ## Serializer (`src/formatter.rs`) -/

def format_description (d : Description) : String :=
  if d.why = "" then d.what else d.what ++ " " ++ d.why

def joinCommaSp : List String → String
  | [] => ""
  | [x] => x
  | x :: xs => x ++ ", " ++ joinCommaSp xs

def entryBlock (e : FileEntry) : String :=
  "`" ++ e.path ++ "`\n" ++ format_description e.description ++ "\n" ++
  (match e.exports with
   | some es => if es.isEmpty then "" else "→ Exports: " ++ joinCommaSp es ++ "\n"
   | none => "") ++
  (match e.touch with
   | some t => "→ Touch: " ++ t ++ "\n"
   | none => "") ++ "\n"

def layerBlock (l : Layer) : String :=
  "## Layer " ++ toString l.number ++ " — " ++ l.name ++ "\n\n" ++
  String.join (l.entries.map entryBlock)

/-- `formatter::to_markdown`. -/
def to_markdown (s : SemmapFile) : String :=
  "# " ++ s.project_name ++ " — Semantic Map\n\n" ++
  (if s.purpose = "" then "" else "**Purpose:** " ++ s.purpose ++ "\n\n") ++
  (if s.legend.isEmpty then ""
   else "## Legend\n\n" ++
     String.join (s.legend.map fun e => "`[" ++ e.tag ++ "]` " ++ e.definition ++ "\n\n")) ++
  String.join (s.layers.map layerBlock)

/-! ## Path utilities (`src/path_utils.rs`) -/

/-- `path_utils::prefix_path`. -/
def prefix_path (pre path : String) : String :=
  if pre = "" then path else (⟨pre.data ++ '/' :: path.data⟩ : String)

/-- `path_utils::strip_prefix_for_lookup`. -/
def strip_prefix_for_lookup (pre path : String) : String :=
  if pre = "" then path
  else if listPre (pre.data ++ ['/']) path.data then
    (⟨path.data.drop (pre.data ++ ['/']).length⟩ : String)
  else path

/-! ## Reconciliation engine (`src/commands/update_helpers.rs`)

`Vec::sort_by` / `sort_by_key` are stable sorts; they are modelled by a
stable insertion sort. -/

def insSorted (le : α → α → Bool) (x : α) : List α → List α
  | [] => [x]
  | y :: ys => if le x y then x :: y :: ys else y :: insSorted le x ys

def isort (le : α → α → Bool) : List α → List α
  | [] => []
  | x :: xs => insSorted le x (isort le xs)

def layerLe (a b : Layer) : Bool := decide (a.number ≤ b.number)

def entryLe (a b : FileEntry) : Bool := decide (a.path ≤ b.path)

/-- `update_helpers::remove_deleted_entries`. -/
def remove_deleted_entries (s : SemmapFile) (removed : List String) : SemmapFile :=
  let layers1 := s.layers.map fun l =>
    { l with entries := l.entries.filter fun e => !(removed.contains e.path) }
  { s with layers := layers1.filter fun l => !l.entries.isEmpty }

/-- Target layer number for an added path: `path_to_layer` lookup with the
(unreachable, see `entryLookup`) default `2`. -/
def targetLayer (fresh : SemmapFile) (pre α : String) : Nat :=
  (path_to_layer fresh (strip_prefix_for_lookup pre α)).getD 2

/-- The staging loop of `add_new_entries`: for each added path, look the
stripped path up in the fresh document's entry map, skip it on a miss,
and otherwise clone the entry with its `path` rewritten to the prefixed
value, keyed by its target layer number. -/
def processedEntries (added : List String) (fresh : SemmapFile) (pre : String) :
    List (Nat × FileEntry) :=
  added.filterMap fun path =>
    match entryLookup fresh (strip_prefix_for_lookup pre path) with
    | some ent => some (targetLayer fresh pre path, { ent with path := path })
    | none => none

def entriesFor (ps : List (Nat × FileEntry)) (n : Nat) : List FileEntry :=
  (ps.filter fun pe => pe.1 == n).map Prod.snd

/-- Append `es` to the last layer whose number is `n` (the `layer_idx`
`HashMap` maps each number to the index of its last occurrence). -/
def extendLast (n : Nat) (es : List FileEntry) : List Layer → List Layer
  | [] => []
  | l :: rest =>
      if l.number == n && rest.all fun l2 => l2.number != n then
        { l with entries := l.entries ++ es } :: rest
      else l :: extendLast n es rest

/-- Insertion loop of `add_new_entries`: each staged group either extends
the (unique, last-indexed) existing layer with its number or pushes a new
layer with the default name.  `orig` is the layer list the `layer_idx`
map was built from.  `HashMap` iteration order is unspecified in Rust;
the groups are supplied here in first-appearance order, which is
immaterial because group keys are distinct and the final sorts fix the
output order. -/
def addGroups : List Layer → List Layer → List (Nat × List FileEntry) → List Layer
  | _, acc, [] => acc
  | orig, acc, (n, es) :: gs =>
      if orig.any fun l => l.number == n then addGroups orig (extendLast n es acc) gs
      else addGroups orig (acc ++ [⟨n, "Layer " ++ toString n, es⟩]) gs

/-- `update_helpers::add_new_entries`. -/
def add_new_entries (s : SemmapFile) (added : List String) (fresh : SemmapFile)
    (pre : String) : SemmapFile :=
  let ps := processedEntries added fresh pre
  let keys := (ps.map Prod.fst).dedup
  let groups := keys.map fun n => (n, entriesFor ps n)
  let layers2 := addGroups s.layers s.layers groups
  { s with
    layers := (isort layerLe layers2).map fun l =>
      { l with entries := isort entryLe l.entries } }

/-- Removed paths: `existing − fresh` (after prefix translation), set
difference of `HashSet`s modelled as a duplicate-preserving filter (only
membership is ever used). -/
def removedPaths (e f : SemmapFile) (pre : String) : List String :=
  (all_paths e).filter fun q => !(((all_paths f).map (prefix_path pre)).contains q)

/-- Added paths: `fresh (prefixed) − existing`, deduplicated as a
`HashSet` is. -/
def addedPaths (e f : SemmapFile) (pre : String) : List String :=
  (((all_paths f).map (prefix_path pre)).dedup).filter fun q =>
    !((all_paths e).contains q)

/-- Modelled from the spec: the reconciliation orchestration of §4.4
(compute the prefix-translated path difference, delete removed entries,
then stage and insert added entries).  The repository's tests
(`tests/update_tests.rs`) exercise exactly this composition of
`remove_deleted_entries` and `add_new_entries`, but the orchestrating
function itself is not in the sources: the `update` in `src/commands.rs`
is a stale variant that bypasses `update_helpers` (no prefix
translation, a single guessed target layer, no sort, no empty-layer
prune) and fails those tests. -/
def reconcile (e f : SemmapFile) (pre : String) : SemmapFile :=
  add_new_entries (remove_deleted_entries e (removedPaths e f pre))
    (addedPaths e f pre) f pre

/-- All entries of a layer list, in layer-then-entry order. -/
def layersEntries (ls : List Layer) : List FileEntry := (ls.map Layer.entries).flatten

/-- Does some entry of the layer have the given path? -/
def hasPath (l : Layer) (q : String) : Bool := l.entries.any fun ent => ent.path == q

/-- Lines scanned by the header phase: everything up to and including the
first line starting with `"## Legend"` (the only break condition of the
`parse_header` loop). -/
def takeThroughLegend : List String → List String
  | [] => []
  | l :: ls => if strStartsWith "## Legend" l then [l] else l :: takeThroughLegend ls

/-- Chain-sortedness under a Boolean relation. -/
def sortedBy (le : α → α → Bool) : List α → Bool
  | [] => true
  | [_] => true
  | a :: b :: t => le a b && sortedBy le (b :: t)

/-! ## Concrete documents used by the closed theorems -/

deriving instance DecidableEq for Except

/-- A document with empty legend and one layer: the shape every
serialized no-legend document takes. -/
def dC1 : SemmapFile :=
  ⟨"Test", "", [], [⟨0, "Config", [⟨"Cargo.toml", ⟨"Manifest.", "Build."⟩, none, none⟩]⟩]⟩

def dupA : FileEntry := ⟨"a.rs", ⟨"One.", ""⟩, none, none⟩

def dupB : FileEntry := ⟨"a.rs", ⟨"Two.", ""⟩, none, none⟩

/-- An existing document in which `a.rs` already occurs in two layers. -/
def eDup : SemmapFile := ⟨"P", "", [], [⟨0, "A", [dupA]⟩, ⟨1, "B", [dupB]⟩]⟩

def fDup : SemmapFile := ⟨"P", "", [], [⟨0, "A", [dupA]⟩]⟩

/-- A fresh document sharing `Cargo.toml` with `dC1` and adding `lib.rs`
in a new layer. -/
def fW : SemmapFile :=
  ⟨"P", "", [], [⟨0, "Config", [⟨"Cargo.toml", ⟨"Fresh.", "F."⟩, none, none⟩]⟩,
                 ⟨1, "Core", [⟨"lib.rs", ⟨"Core.", ""⟩, none, none⟩]⟩]⟩

/-! ## Theorems -/

/-! ### C4: the description split -/

theorem listPre_dotSpace (c : Char) (cs : List Char) :
    listPre ['.', ' '] (c :: cs) = (decide ('.' = c) && listPre [' '] cs) := rfl

theorem splitDot_eq_none (s : List Char) (h : containsSub ['.', ' '] s = false) :
    splitDot s = none := by
  induction s with
  | nil => rfl
  | cons c cs ih =>
      simp only [containsSub, Bool.or_eq_false_iff] at h
      obtain ⟨h1, h2⟩ := h
      rw [listPre_dotSpace] at h1
      unfold splitDot
      by_cases hc : c = '.'
      · subst hc
        simp only [decide_True, Bool.true_and] at h1
        simp [h1, ih h2]
      · have hc2 : ¬ ('.' = c) := fun hx => hc hx.symm
        simp [hc, hc2, ih h2]

theorem splitDot_first (a b : List Char) (h : containsSub ['.', ' '] a = false) :
    splitDot (a ++ '.' :: ' ' :: b) = some (a, b) := by
  induction a with
  | nil => rfl
  | cons c cs ih =>
      simp only [containsSub, Bool.or_eq_false_iff] at h
      obtain ⟨h1, h2⟩ := h
      rw [listPre_dotSpace] at h1
      unfold splitDot
      by_cases hc : c = '.'
      · subst hc
        simp only [decide_True, Bool.true_and] at h1
        have hcs : listPre [' '] (cs ++ '.' :: ' ' :: b) = false := by
          cases cs with
          | nil => rfl
          | cons x xs =>
              simp only [listPre] at h1 ⊢
              simpa using h1
        simp [hcs, ih h2]
      · simp [hc, ih h2]

/-- C4: `split_description` splits at the first occurrence of the
two-character sequence `". "`, re-terminating the first part with a
period; with no occurrence the whole text becomes `what` and `why` is
empty; and the body `"Defines dependencies. Needed for build."` splits
into `"Defines dependencies."` / `"Needed for build."`. -/
theorem C4_split_description_spec :
    (∀ a b : List Char, containsSub ['.', ' '] a = false →
        split_description ⟨a ++ '.' :: ' ' :: b⟩ = (⟨a ++ ['.']⟩, ⟨b⟩)) ∧
    (∀ s : String, containsSub ['.', ' '] s.data = false →
        split_description s = (s, "")) ∧
    split_description "Defines dependencies. Needed for build." =
      ("Defines dependencies.", "Needed for build.") := by
  refine ⟨fun a b h => ?_, fun s h => ?_, by decide⟩
  · unfold split_description
    rw [show ((⟨a ++ '.' :: ' ' :: b⟩ : String)).data = a ++ '.' :: ' ' :: b from rfl,
      splitDot_first a b h]
  · unfold split_description
    rw [splitDot_eq_none s.data h]

theorem C4_split_description_witness :
    containsSub ['.', ' '] "What part".data = false ∧
    split_description ⟨"What part".data ++ '.' :: ' ' :: "Why part.".data⟩ =
      (⟨"What part".data ++ ['.']⟩, "Why part.") :=
  ⟨by decide, C4_split_description_spec.1 "What part".data "Why part.".data (by decide)⟩

/-! ### C10: out-of-range layer numbers -/

/-- C10: a layer header whose digit sequence does not fit `u8` still
produces a Layer, with number `0`: the range check of `parse::<u8>` sends
any value above 255 to the `unwrap_or(0)` default, and parsing a document
with header `## Layer 999 — Big` yields a layer numbered `0`. -/
theorem C10_layer_number_clamp :
    (∀ ds : List Char, 255 < digitsToNat ds → u8OrZero ds = 0) ∧
    parse "# P — Semantic Map\n## Legend\n## Layer 999 — Big\n`a.rs`\nDoes things.\n" =
      .ok ⟨"P", "", [], [⟨0, "Big", [⟨"a.rs", ⟨"Does things.", ""⟩, none, none⟩]⟩]⟩ :=
  ⟨fun ds h => by unfold u8OrZero; rw [if_neg (Nat.not_le.mpr h)], by decide⟩

theorem C10_layer_number_witness :
    255 < digitsToNat ['9', '9', '9'] ∧ u8OrZero ['9', '9', '9'] = 0 :=
  ⟨by decide, C10_layer_number_clamp.1 ['9', '9', '9'] (by decide)⟩

/-! ### C1, C2, C3: parser header-phase behaviour -/

/-- C1 (code bug): round-tripping fails on the code as written.  For the
one-layer, empty-legend document `dC1`, `parse (to_markdown dC1)`
succeeds but returns a document with *no* layers: the header loop of
`parse_header` breaks only at `"## Legend"` lines, so with no legend
section it consumes the whole document, and the layer sections are never
parsed.  The repository's own tests require this round trip to work. -/
theorem C1_roundtrip_code_bug :
    parse (to_markdown dC1) = .ok ⟨"Test", "", [], []⟩ ∧
    ¬ parse (to_markdown dC1) = .ok dC1 := by decide

/-- C2 (code bug): the header phase does not end at `"## Layer"` lines,
and a later title match overwrites an earlier one.  On a text whose first
line is a title `A`, followed by a layer header, followed by a second
title `B`, the parser returns `project_name = "B"` (last match wins) and
no layers (the header phase consumed the whole input), while the claim
requires `"A"` and one layer. -/
theorem C2_header_phase_code_bug :
    titleCapture "# A — Semantic Map" = some "A" ∧
    parse "# A — Semantic Map\n## Layer 0 — X\n# B — Semantic Map" =
      .ok ⟨"B", "", [], []⟩ := by decide

/-- C3 counterexample: a text *does* contain a line matching the title
pattern, yet `parse` fails — the matching line is behind a `"## Legend"`
line, outside the header phase. -/
theorem C3_counterexample :
    titleCapture "# X — Semantic Map" = some "X" ∧
    parse "## Legend\n# X — Semantic Map" =
      .error ⟨1, "Missing project title (# name — Semantic Map)"⟩ := by decide

/-! ### C7 counterexample: duplicated paths survive reconciliation -/

/-- C7 counterexample: for the existing document `eDup`, in which
`a.rs` occurs in two layers, and a fresh document still containing
`a.rs`, the reconciled document keeps `a.rs` in two distinct layers. -/
theorem C7_counterexample :
    ((reconcile eDup fDup "").layers.countP fun l => hasPath l "a.rs") = 2 := by decide

/-! ### Stable insertion sort: permutation and sortedness facts -/

theorem insSorted_perm (le : α → α → Bool) (x : α) (l : List α) :
    List.Perm (insSorted le x l) (x :: l) := by
  induction l with
  | nil => exact List.Perm.refl _
  | cons y ys ih =>
      unfold insSorted
      split
      · exact List.Perm.refl _
      · exact (ih.cons y).trans (List.Perm.swap x y ys)

theorem isort_perm (le : α → α → Bool) (l : List α) : List.Perm (isort le l) l := by
  induction l with
  | nil => exact List.Perm.refl _
  | cons x xs ih => exact (insSorted_perm le x (isort le xs)).trans (ih.cons x)

theorem mem_isort (le : α → α → Bool) (l : List α) (a : α) :
    a ∈ isort le l ↔ a ∈ l :=
  (isort_perm le l).mem_iff

theorem insSorted_ne_nil (le : α → α → Bool) (x : α) (l : List α) :
    insSorted le x l ≠ [] := by
  cases l with
  | nil => simp [insSorted]
  | cons y ys =>
      unfold insSorted
      split <;> simp

theorem isort_ne_nil (le : α → α → Bool) (l : List α) (h : l ≠ []) :
    isort le l ≠ [] := by
  cases l with
  | nil => exact absurd rfl h
  | cons x xs => exact insSorted_ne_nil le x (isort le xs)

theorem insSorted_sorted (le : α → α → Bool) (htot : ∀ a b, (le a b || le b a) = true)
    (x : α) (l : List α) (h : sortedBy le l = true) :
    sortedBy le (insSorted le x l) = true := by
  induction l with
  | nil => rfl
  | cons y ys ih =>
      unfold insSorted
      by_cases hxy : le x y = true
      · rw [if_pos hxy]
        simpa [sortedBy, hxy] using h
      · rw [if_neg hxy]
        have hyx : le y x = true := by
          have h2 := htot x y
          rw [Bool.or_eq_true] at h2
          rcases h2 with h1 | h1
          · exact absurd h1 hxy
          · exact h1
        cases ys with
        | nil => simp [insSorted, sortedBy, hyx]
        | cons z zs =>
            have hyz : le y z = true := by
              simp [sortedBy, Bool.and_eq_true] at h
              exact h.1
            have hs2 : sortedBy le (z :: zs) = true := by
              simp [sortedBy, Bool.and_eq_true] at h
              exact h.2
            have ihs := ih hs2
            unfold insSorted at ihs ⊢
            by_cases hxz : le x z = true
            · rw [if_pos hxz]
              rw [if_pos hxz] at ihs
              simp [sortedBy, Bool.and_eq_true, hyx, hxz]
              simpa [sortedBy, Bool.and_eq_true, hxz] using ihs
            · rw [if_neg hxz]
              rw [if_neg hxz] at ihs
              simpa [sortedBy, Bool.and_eq_true, hyz] using ihs

theorem isort_sorted (le : α → α → Bool) (htot : ∀ a b, (le a b || le b a) = true)
    (l : List α) : sortedBy le (isort le l) = true := by
  induction l with
  | nil => rfl
  | cons x xs ih => exact insSorted_sorted le htot x (isort le xs) ih

theorem isort_of_sorted (le : α → α → Bool) (l : List α)
    (h : sortedBy le l = true) : isort le l = l := by
  induction l with
  | nil => rfl
  | cons x xs ih =>
      cases xs with
      | nil => rfl
      | cons y ys =>
          have hxy : le x y = true := by
            simp [sortedBy, Bool.and_eq_true] at h
            exact h.1
          have hs : sortedBy le (y :: ys) = true := by
            simp [sortedBy, Bool.and_eq_true] at h
            exact h.2
          show insSorted le x (isort le (y :: ys)) = x :: y :: ys
          rw [ih hs]
          unfold insSorted
          rw [if_pos hxy]

theorem layerLe_total : ∀ a b : Layer, (layerLe a b || layerLe b a) = true := by
  intro a b
  unfold layerLe
  rcases Nat.le_total a.number b.number with h | h <;> simp [h]

theorem entryLe_total : ∀ a b : FileEntry, (entryLe a b || entryLe b a) = true := by
  intro a b
  unfold entryLe
  rcases le_total a.path b.path with h | h <;> simp [h]

/-! ### Membership infrastructure for the reconciliation engine -/

theorem allEntries_eq (d : SemmapFile) : allEntries d = layersEntries d.layers := rfl

theorem mem_layersEntries (ls : List Layer) (ent : FileEntry) :
    ent ∈ layersEntries ls ↔ ∃ l ∈ ls, ent ∈ l.entries := by
  simp [layersEntries, List.mem_flatten]

theorem flatten_filter_nonempty (ls : List Layer) :
    layersEntries (ls.filter fun l => !l.entries.isEmpty) = layersEntries ls := by
  induction ls with
  | nil => rfl
  | cons l t ih =>
      unfold layersEntries at ih ⊢
      by_cases h : l.entries.isEmpty = true
      · have hnil : l.entries = [] := List.isEmpty_iff.mp h
        simp [List.filter_cons, h, hnil, ih]
      · simp only [List.filter_cons]
        rw [if_pos (by simp [h])]
        simp [ih]

theorem flatten_map_filterEntries (ls : List Layer) (p : FileEntry → Bool) :
    layersEntries (ls.map fun l => { l with entries := l.entries.filter p }) =
      (layersEntries ls).filter p := by
  induction ls with
  | nil => rfl
  | cons l t ih =>
      unfold layersEntries at ih ⊢
      simp only [List.map_cons, List.flatten_cons, List.filter_append, ih]

theorem allEntries_remove (s : SemmapFile) (removed : List String) :
    allEntries (remove_deleted_entries s removed) =
      (allEntries s).filter fun e => !(removed.contains e.path) := by
  show layersEntries _ = _
  unfold remove_deleted_entries
  rw [flatten_filter_nonempty, flatten_map_filterEntries]
  rfl

theorem contains_iff_mem (l : List String) (q : String) :
    l.contains q = true ↔ q ∈ l := by
  simp [List.contains]

theorem remove_layers_entries_sub (s : SemmapFile) (removed : List String)
    (l : Layer) (hl : l ∈ (remove_deleted_entries s removed).layers)
    (ent : FileEntry) (hent : ent ∈ l.entries) : ent ∈ allEntries s := by
  have h1 : ent ∈ allEntries (remove_deleted_entries s removed) :=
    (mem_layersEntries _ ent).mpr ⟨l, hl, hent⟩
  rw [allEntries_remove] at h1
  exact List.mem_of_mem_filter h1

theorem remove_nonempty (s : SemmapFile) (removed : List String) :
    ∀ l ∈ (remove_deleted_entries s removed).layers, l.entries ≠ [] := by
  intro l hl
  unfold remove_deleted_entries at hl
  have := List.of_mem_filter hl
  intro hnil
  rw [hnil] at this
  simp at this

/-! ### `extendLast` facts -/

theorem extendLast_entries_sub (n : Nat) (es : List FileEntry) (ls : List Layer) :
    ∀ ent ∈ layersEntries (extendLast n es ls), ent ∈ layersEntries ls ∨ ent ∈ es := by
  induction ls with
  | nil => intro ent h; exact absurd h (by simp [extendLast, layersEntries])
  | cons l t ih =>
      intro ent h
      unfold extendLast at h
      split at h
      · rw [mem_layersEntries] at h
        rcases h with ⟨l2, hl2, hent⟩
        rcases List.mem_cons.mp hl2 with rfl | hl2
        · rcases List.mem_append.mp hent with h1 | h1
          · exact Or.inl ((mem_layersEntries _ _).mpr ⟨l, List.mem_cons_self _ _, h1⟩)
          · exact Or.inr h1
        · exact Or.inl ((mem_layersEntries _ _).mpr ⟨l2, List.mem_cons_of_mem _ hl2, hent⟩)
      · rw [mem_layersEntries] at h
        rcases h with ⟨l2, hl2, hent⟩
        rcases List.mem_cons.mp hl2 with rfl | hl2
        · exact Or.inl ((mem_layersEntries _ _).mpr ⟨l2, List.mem_cons_self _ _, hent⟩)
        · rcases ih ent ((mem_layersEntries _ _).mpr ⟨l2, hl2, hent⟩) with h1 | h1
          · rw [mem_layersEntries] at h1
            rcases h1 with ⟨l3, hl3, h3⟩
            exact Or.inl ((mem_layersEntries _ _).mpr ⟨l3, List.mem_cons_of_mem _ hl3, h3⟩)
          · exact Or.inr h1

theorem extendLast_sub_entries (n : Nat) (es : List FileEntry) (ls : List Layer) :
    ∀ ent ∈ layersEntries ls, ent ∈ layersEntries (extendLast n es ls) := by
  induction ls with
  | nil => intro ent h; exact absurd h (by simp [layersEntries])
  | cons l t ih =>
      intro ent h
      rw [mem_layersEntries] at h
      rcases h with ⟨l2, hl2, hent⟩
      unfold extendLast
      split
      · rcases List.mem_cons.mp hl2 with rfl | hl2
        · exact (mem_layersEntries _ _).mpr
            ⟨_, List.mem_cons_self _ _, List.mem_append_left _ hent⟩
        · exact (mem_layersEntries _ _).mpr ⟨l2, List.mem_cons_of_mem _ hl2, hent⟩
      · rcases List.mem_cons.mp hl2 with rfl | hl2
        · exact (mem_layersEntries _ _).mpr ⟨l2, List.mem_cons_self _ _, hent⟩
        · have := ih ent ((mem_layersEntries _ _).mpr ⟨l2, hl2, hent⟩)
          rw [mem_layersEntries] at this
          rcases this with ⟨l3, hl3, h3⟩
          exact (mem_layersEntries _ _).mpr ⟨l3, List.mem_cons_of_mem _ hl3, h3⟩

theorem extendLast_places (n : Nat) (es : List FileEntry) (ls : List Layer)
    (h : (ls.any fun l => l.number == n) = true) :
    ∃ l ∈ extendLast n es ls, l.number = n ∧ ∀ x ∈ es, x ∈ l.entries := by
  induction ls with
  | nil => simp at h
  | cons l t ih =>
      unfold extendLast
      by_cases hc : (l.number == n && t.all fun l2 => l2.number != n) = true
      · rw [if_pos hc]
        refine ⟨_, List.mem_cons_self _ _, ?_, fun x hx => List.mem_append_right _ hx⟩
        show l.number = n
        exact eq_of_beq ((Bool.and_eq_true _ _).mp hc).1
      · rw [if_neg hc]
        have hcons : ((l.number == n) || t.any fun l2 => l2.number == n) = true := by
          simpa [List.any_cons] using h
        have ht : (t.any fun l2 => l2.number == n) = true := by
          rcases (Bool.or_eq_true _ _).mp hcons with h1 | h1
          · by_cases htall : (t.all fun l2 => l2.number != n) = true
            · exact absurd (by rw [h1, htall]; rfl) hc
            · have hex : ∃ x, x ∈ t ∧ ¬ ((x.number != n) = true) := by
                by_contra hno
                push_neg at hno
                exact htall (List.all_eq_true.mpr fun x hx => hno x hx)
              rcases hex with ⟨x, hx, hb⟩
              have hxn : (x.number == n) = true := by
                cases hbeq : (x.number == n) with
                | false => exact absurd (by simp [bne, hbeq]) hb
                | true => rfl
              exact List.any_eq_true.mpr ⟨x, hx, hxn⟩
          · exact h1
        rcases ih ht with ⟨l2, hl2, hnum, hsub⟩
        exact ⟨l2, List.mem_cons_of_mem _ hl2, hnum, hsub⟩

theorem extendLast_map_number (n : Nat) (es : List FileEntry) (ls : List Layer) :
    (extendLast n es ls).map Layer.number = ls.map Layer.number := by
  induction ls with
  | nil => rfl
  | cons l t ih =>
      unfold extendLast
      split
      · rfl
      · simp [ih]

theorem extendLast_nonempty (n : Nat) (es : List FileEntry) (ls : List Layer)
    (h : ∀ l ∈ ls, l.entries ≠ []) :
    ∀ l ∈ extendLast n es ls, l.entries ≠ [] := by
  induction ls with
  | nil => intro l hl; exact absurd hl (by simp [extendLast])
  | cons l t ih =>
      intro l2 hl2
      unfold extendLast at hl2
      split at hl2
      · rcases List.mem_cons.mp hl2 with rfl | h2
        · show l.entries ++ es ≠ []
          intro hnil
          exact h l (List.mem_cons_self _ _) (List.append_eq_nil.mp hnil).1
        · exact h l2 (List.mem_cons_of_mem _ h2)
      · rcases List.mem_cons.mp hl2 with rfl | h2
        · exact h l2 (List.mem_cons_self _ _)
        · exact ih (fun x hx => h x (List.mem_cons_of_mem _ hx)) l2 h2

theorem extendLast_mem_preserve (n : Nat) (es : List FileEntry) (ls : List Layer)
    (l : Layer) (hl : l ∈ ls) (hn : l.number ≠ n) : l ∈ extendLast n es ls := by
  induction ls with
  | nil => exact absurd hl (by simp)
  | cons a t ih =>
      unfold extendLast
      rcases List.mem_cons.mp hl with rfl | h2
      · split
        · rename_i hc
          exact absurd (eq_of_beq ((Bool.and_eq_true _ _).mp hc).1) hn
        · exact List.mem_cons_self _ _
      · split
        · exact List.mem_cons_of_mem _ h2
        · exact List.mem_cons_of_mem _ (ih h2)

/-! ### `addGroups` facts -/

theorem any_number_extendLast (n : Nat) (es : List FileEntry) (ls : List Layer) (m : Nat) :
    ((extendLast n es ls).any fun l => l.number == m) = (ls.any fun l => l.number == m) := by
  induction ls with
  | nil => rfl
  | cons l t ih =>
      unfold extendLast
      split
      · simp [List.any_cons]
      · simp [List.any_cons, ih]

theorem addGroups_entries_sub (orig : List Layer) (gs : List (Nat × List FileEntry)) :
    ∀ acc, ∀ ent ∈ layersEntries (addGroups orig acc gs),
      ent ∈ layersEntries acc ∨ ∃ g ∈ gs, ent ∈ g.2 := by
  induction gs with
  | nil => intro acc ent h; exact Or.inl h
  | cons g gs ih =>
      intro acc ent h
      unfold addGroups at h
      rcases g with ⟨n, es⟩
      split at h
      · rcases ih _ ent h with h1 | ⟨g2, hg2, h2⟩
        · rcases extendLast_entries_sub n es acc ent h1 with h2 | h2
          · exact Or.inl h2
          · exact Or.inr ⟨(n, es), List.mem_cons_self _ _, h2⟩
        · exact Or.inr ⟨g2, List.mem_cons_of_mem _ hg2, h2⟩
      · rcases ih _ ent h with h1 | ⟨g2, hg2, h2⟩
        · rw [mem_layersEntries] at h1
          rcases h1 with ⟨l2, hl2, hent⟩
          rcases List.mem_append.mp hl2 with h3 | h3
          · exact Or.inl ((mem_layersEntries _ _).mpr ⟨l2, h3, hent⟩)
          · have : l2 = ⟨n, "Layer " ++ toString n, es⟩ := by simpa using h3
            subst this
            exact Or.inr ⟨(n, es), List.mem_cons_self _ _, hent⟩
        · exact Or.inr ⟨g2, List.mem_cons_of_mem _ hg2, h2⟩

theorem addGroups_sub_entries (orig : List Layer) (gs : List (Nat × List FileEntry)) :
    ∀ acc, ∀ ent ∈ layersEntries acc, ent ∈ layersEntries (addGroups orig acc gs) := by
  induction gs with
  | nil => intro acc ent h; exact h
  | cons g gs ih =>
      intro acc ent h
      unfold addGroups
      rcases g with ⟨n, es⟩
      split
      · exact ih _ ent (extendLast_sub_entries n es acc ent h)
      · refine ih _ ent ?_
        rw [mem_layersEntries] at h ⊢
        rcases h with ⟨l, hl, hent⟩
        exact ⟨l, List.mem_append_left _ hl, hent⟩

theorem addGroups_group_mem (orig : List Layer) (gs : List (Nat × List FileEntry)) :
    ∀ acc, (∀ m : Nat, (orig.any fun l => l.number == m) = true →
        (acc.any fun l => l.number == m) = true) →
      ∀ g ∈ gs, ∀ ent ∈ g.2, ent ∈ layersEntries (addGroups orig acc gs) := by
  induction gs with
  | nil => intro acc _ g hg; exact absurd hg (by simp)
  | cons g0 gs ih =>
      intro acc hinv g hg ent hent
      obtain ⟨n, es⟩ := g0
      unfold addGroups
      rcases List.mem_cons.mp hg with heq | hg2
      · subst heq
        split
        · rename_i horig
          have hacc : (acc.any fun l => l.number == n) = true := hinv n horig
          rcases extendLast_places n es acc hacc with ⟨l, hl, _, hsub⟩
          exact addGroups_sub_entries orig gs _ ent
            ((mem_layersEntries _ _).mpr ⟨l, hl, hsub ent hent⟩)
        · refine addGroups_sub_entries orig gs _ ent ?_
          exact (mem_layersEntries _ _).mpr
            ⟨⟨n, "Layer " ++ toString n, es⟩, by simp, hent⟩
      · split
        · refine ih _ (fun m hm => ?_) g hg2 ent hent
          rw [any_number_extendLast]
          exact hinv m hm
        · refine ih _ (fun m hm => ?_) g hg2 ent hent
          rcases List.any_eq_true.mp (hinv m hm) with ⟨x, hx, hpx⟩
          exact List.any_eq_true.mpr ⟨x, List.mem_append_left _ hx, hpx⟩

theorem addGroups_nonempty (orig : List Layer) (gs : List (Nat × List FileEntry)) :
    ∀ acc, (∀ l ∈ acc, l.entries ≠ []) → (∀ g ∈ gs, g.2 ≠ []) →
      ∀ l ∈ addGroups orig acc gs, l.entries ≠ [] := by
  induction gs with
  | nil => intro acc hacc _ l hl; exact hacc l hl
  | cons g0 gs ih =>
      intro acc hacc hgs l hl
      unfold addGroups at hl
      rcases g0 with ⟨n, es⟩
      split at hl
      · exact ih _ (extendLast_nonempty n es acc hacc)
          (fun g hg => hgs g (List.mem_cons_of_mem _ hg)) l hl
      · refine ih _ (fun l2 hl2 => ?_) (fun g hg => hgs g (List.mem_cons_of_mem _ hg)) l hl
        rcases List.mem_append.mp hl2 with h2 | h2
        · exact hacc l2 h2
        · have : l2 = ⟨n, "Layer " ++ toString n, es⟩ := by simpa using h2
          subst this
          exact hgs (n, es) (List.mem_cons_self _ _)

theorem addGroups_layer_preserve (orig : List Layer) (gs : List (Nat × List FileEntry)) :
    ∀ acc, ∀ l ∈ acc, (∀ g ∈ gs, g.1 ≠ l.number) → l ∈ addGroups orig acc gs := by
  induction gs with
  | nil => intro acc l hl _; exact hl
  | cons g0 gs ih =>
      intro acc l hl hn
      unfold addGroups
      rcases g0 with ⟨n, es⟩
      have hne : n ≠ l.number := hn (n, es) (List.mem_cons_self _ _)
      split
      · exact ih _ l (extendLast_mem_preserve n es acc l hl fun h => hne h.symm)
          fun g hg => hn g (List.mem_cons_of_mem _ hg)
      · exact ih _ l (List.mem_append_left _ hl)
          fun g hg => hn g (List.mem_cons_of_mem _ hg)

theorem addGroups_places (orig : List Layer) (gs : List (Nat × List FileEntry)) :
    ∀ acc, (∀ m : Nat, (orig.any fun l => l.number == m) = true →
        (acc.any fun l => l.number == m) = true) →
      (gs.map Prod.fst).Nodup →
      ∀ n es, (n, es) ∈ gs →
        ∃ l ∈ addGroups orig acc gs, l.number = n ∧ (∀ x ∈ es, x ∈ l.entries) ∧
          ((orig.any fun l2 => l2.number == n) = false →
            l.name = "Layer " ++ toString n) := by
  induction gs with
  | nil => intro acc _ _ n es hg; exact absurd hg (by simp)
  | cons g0 gs ih =>
      intro acc hinv hnd n es hg
      obtain ⟨n0, es0⟩ := g0
      unfold addGroups
      rcases List.mem_cons.mp hg with heq | hg2
      · have hn0 : n0 = n := (congrArg Prod.fst heq).symm
        have hes0 : es0 = es := (congrArg Prod.snd heq).symm
        subst hn0; subst hes0
        have hrest : ∀ g ∈ gs, g.1 ≠ n0 := by
          intro g hgmem hfst
          have h1 : n0 ∈ gs.map Prod.fst := hfst ▸ List.mem_map_of_mem Prod.fst hgmem
          exact (List.nodup_cons.mp hnd).1 h1
        split
        · rename_i horig
          rcases extendLast_places n0 es0 acc (hinv n0 horig) with ⟨l, hl, hnum, hsub⟩
          refine ⟨l, addGroups_layer_preserve orig gs _ l hl
            (fun g hgm => hnum ▸ hrest g hgm), hnum, hsub, fun hfalse => ?_⟩
          rw [horig] at hfalse
          exact absurd hfalse (by simp)
        · refine ⟨⟨n0, "Layer " ++ toString n0, es0⟩,
            addGroups_layer_preserve orig gs _ _ (by simp) (fun g hgm => hrest g hgm),
            rfl, fun x hx => hx, fun _ => rfl⟩
      · split
        · refine ih _ (fun m hm => ?_) (List.nodup_cons.mp hnd).2 n es hg2
          rw [any_number_extendLast]
          exact hinv m hm
        · refine ih _ (fun m hm => ?_) (List.nodup_cons.mp hnd).2 n es hg2
          rcases List.any_eq_true.mp (hinv m hm) with ⟨x, hx, hpx⟩
          exact List.any_eq_true.mpr ⟨x, List.mem_append_left _ hx, hpx⟩

/-! ### Staged entries, path translation, and lookup facts -/

theorem processedEntries_path (added : List String) (f : SemmapFile) (pre : String) :
    ∀ pe ∈ processedEntries added f pre, pe.2.path ∈ added := by
  intro pe hpe
  rcases List.mem_filterMap.mp hpe with ⟨α, hα, hF⟩
  rcases hlook : entryLookup f (strip_prefix_for_lookup pre α) with _ | ent
  · rw [hlook] at hF; exact absurd hF (by simp)
  · rw [hlook] at hF
    have : pe = (targetLayer f pre α, { ent with path := α }) := by
      simpa using hF.symm
    rw [this]
    exact hα

theorem processedEntries_unique (added : List String) (f : SemmapFile) (pre : String)
    (pe1 pe2 : Nat × FileEntry) (h1 : pe1 ∈ processedEntries added f pre)
    (h2 : pe2 ∈ processedEntries added f pre) (hpath : pe1.2.path = pe2.2.path) :
    pe1 = pe2 := by
  rcases List.mem_filterMap.mp h1 with ⟨α1, _, hF1⟩
  rcases List.mem_filterMap.mp h2 with ⟨α2, _, hF2⟩
  rcases hl1 : entryLookup f (strip_prefix_for_lookup pre α1) with _ | ent1
  · rw [hl1] at hF1; exact absurd hF1 (by simp)
  rcases hl2 : entryLookup f (strip_prefix_for_lookup pre α2) with _ | ent2
  · rw [hl2] at hF2; exact absurd hF2 (by simp)
  rw [hl1] at hF1; rw [hl2] at hF2
  have he1 : pe1 = (targetLayer f pre α1, { ent1 with path := α1 }) := by simpa using hF1.symm
  have he2 : pe2 = (targetLayer f pre α2, { ent2 with path := α2 }) := by simpa using hF2.symm
  have hα : α1 = α2 := by
    have p1 : pe1.2.path = α1 := by rw [he1]
    have p2 : pe2.2.path = α2 := by rw [he2]
    rw [← p1, ← p2, hpath]
  subst hα
  rw [he1, he2]
  rw [hl1] at hl2
  have : ent1 = ent2 := by simpa using hl2
  rw [this]

theorem listPre_append (a b : List Char) : listPre a (a ++ b) = true := by
  induction a with
  | nil => rfl
  | cons c cs ih => simp [listPre, ih]

theorem strip_prefix_path (pre q : String) :
    strip_prefix_for_lookup pre (prefix_path pre q) = q := by
  unfold strip_prefix_for_lookup prefix_path
  by_cases h : pre = ""
  · simp [h]
  · rw [if_neg h, if_neg h]
    have hassoc : pre.data ++ '/' :: q.data = (pre.data ++ ['/']) ++ q.data := by simp
    have hpre : listPre (pre.data ++ ['/'])
        ((⟨pre.data ++ '/' :: q.data⟩ : String)).data = true := by
      show listPre (pre.data ++ ['/']) (pre.data ++ '/' :: q.data) = true
      rw [hassoc]
      exact listPre_append _ _
    rw [if_pos hpre]
    show (⟨(pre.data ++ '/' :: q.data).drop (pre.data ++ ['/']).length⟩ : String) = q
    rw [hassoc, List.drop_left]

theorem lookup_some_of_key_mem {β : Type} (l : List (String × β)) (q : String)
    (h : q ∈ l.map Prod.fst) : ∃ b, l.lookup q = some b := by
  induction l with
  | nil => simp at h
  | cons p t ih =>
      obtain ⟨k, v⟩ := p
      by_cases hq : (q == k) = true
      · exact ⟨v, by simp [List.lookup, hq]⟩
      · have hqf : (q == k) = false := by simpa using hq
        have h2 : q = k ∨ q ∈ t.map Prod.fst := by simpa using h
        rcases h2 with h1 | h1
        · exact absurd (by simp [h1]) hq
        · rcases ih h1 with ⟨b, hb⟩
          exact ⟨b, by simp [List.lookup, hqf, hb]⟩

theorem entryPairs_eq (f : SemmapFile) :
    entryPairs f = (allEntries f).map fun e => (e.path, e) := by
  unfold entryPairs allEntries
  rw [List.map_flatten, List.map_map]
  rfl

theorem entryLookup_mem (f : SemmapFile) (q : String) (h : q ∈ all_paths f) :
    ∃ ent, entryLookup f q = some ent := by
  unfold entryLookup
  apply lookup_some_of_key_mem
  rw [List.map_reverse, entryPairs_eq, List.map_map]
  rw [List.mem_reverse]
  have : (Prod.fst ∘ fun e : FileEntry => (e.path, e)) = FileEntry.path := rfl
  rw [this]
  exact h

theorem addedPaths_processed (e f : SemmapFile) (pre α : String)
    (h : α ∈ addedPaths e f pre) :
    ∃ ent, entryLookup f (strip_prefix_for_lookup pre α) = some ent ∧
      (targetLayer f pre α, { ent with path := α }) ∈
        processedEntries (addedPaths e f pre) f pre := by
  have hα : α ∈ ((all_paths f).map (prefix_path pre)).dedup := List.mem_of_mem_filter h
  have hα2 : α ∈ (all_paths f).map (prefix_path pre) := List.mem_dedup.mp hα
  rcases List.mem_map.mp hα2 with ⟨q0, hq0, hpre⟩
  have hstrip : strip_prefix_for_lookup pre α = q0 := by rw [← hpre, strip_prefix_path]
  rcases entryLookup_mem f q0 hq0 with ⟨ent, hent⟩
  refine ⟨ent, by rw [hstrip]; exact hent, ?_⟩
  apply List.mem_filterMap.mpr
  refine ⟨α, h, ?_⟩
  rw [hstrip, hent]

/-! ### Membership characterization of `add_new_entries` and `reconcile` -/

theorem add_new_entries_layers (s : SemmapFile) (added : List String) (f : SemmapFile)
    (pre : String) :
    (add_new_entries s added f pre).layers =
      (isort layerLe (addGroups s.layers s.layers
        ((((processedEntries added f pre).map Prod.fst).dedup).map fun n =>
          (n, entriesFor (processedEntries added f pre) n)))).map fun l =>
        { l with entries := isort entryLe l.entries } := rfl

theorem mem_layersEntries_entrySort (L : List Layer) (ent : FileEntry) :
    ent ∈ layersEntries (L.map fun l => { l with entries := isort entryLe l.entries }) ↔
      ent ∈ layersEntries L := by
  rw [mem_layersEntries, mem_layersEntries]
  constructor
  · rintro ⟨l2, hl2, hent⟩
    rcases List.mem_map.mp hl2 with ⟨l, hl, rfl⟩
    exact ⟨l, hl, (mem_isort _ _ _).mp hent⟩
  · rintro ⟨l, hl, hent⟩
    exact ⟨_, List.mem_map_of_mem _ hl, (mem_isort _ _ _).mpr hent⟩

theorem mem_layersEntries_isort (L : List Layer) (ent : FileEntry) :
    ent ∈ layersEntries (isort layerLe L) ↔ ent ∈ layersEntries L := by
  rw [mem_layersEntries, mem_layersEntries]
  constructor
  · rintro ⟨l, hl, hent⟩
    exact ⟨l, (mem_isort _ _ _).mp hl, hent⟩
  · rintro ⟨l, hl, hent⟩
    exact ⟨l, (mem_isort _ _ _).mpr hl, hent⟩

theorem mem_addGroups_staged (s : SemmapFile) (added : List String) (f : SemmapFile)
    (pre : String) (ent : FileEntry) :
    ent ∈ layersEntries (addGroups s.layers s.layers
      ((((processedEntries added f pre).map Prod.fst).dedup).map fun n =>
        (n, entriesFor (processedEntries added f pre) n))) ↔
      ent ∈ allEntries s ∨ ent ∈ (processedEntries added f pre).map Prod.snd := by
  constructor
  · intro h
    rcases addGroups_entries_sub s.layers _ s.layers ent h with h1 | ⟨g, hg, hent⟩
    · exact Or.inl h1
    · rcases List.mem_map.mp hg with ⟨n, _, rfl⟩
      rcases List.mem_map.mp hent with ⟨pe, hpe, rfl⟩
      exact Or.inr (List.mem_map_of_mem _ (List.mem_of_mem_filter hpe))
  · intro h
    rcases h with h1 | h1
    · exact addGroups_sub_entries s.layers _ s.layers ent h1
    · rcases List.mem_map.mp h1 with ⟨pe, hpe, rfl⟩
      refine addGroups_group_mem s.layers _ s.layers (fun m hm => hm)
        (pe.1, entriesFor (processedEntries added f pre) pe.1) ?_ pe.2 ?_
      · exact List.mem_map_of_mem _ (List.mem_dedup.mpr (List.mem_map_of_mem _ hpe))
      · exact List.mem_map_of_mem _ (List.mem_filter.mpr ⟨hpe, by simp⟩)

theorem mem_allEntries_add (s : SemmapFile) (added : List String) (f : SemmapFile)
    (pre : String) (ent : FileEntry) :
    ent ∈ allEntries (add_new_entries s added f pre) ↔
      ent ∈ allEntries s ∨ ent ∈ (processedEntries added f pre).map Prod.snd := by
  rw [allEntries_eq, add_new_entries_layers]
  exact (mem_layersEntries_entrySort _ ent).trans
    ((mem_layersEntries_isort _ ent).trans (mem_addGroups_staged s added f pre ent))

theorem mem_allEntries_reconcile (e f : SemmapFile) (pre : String) (ent : FileEntry) :
    ent ∈ allEntries (reconcile e f pre) ↔
      (ent ∈ allEntries e ∧
        ((removedPaths e f pre).contains ent.path) = false) ∨
      ent ∈ (processedEntries (addedPaths e f pre) f pre).map Prod.snd := by
  unfold reconcile
  rw [mem_allEntries_add, allEntries_remove]
  constructor
  · intro h
    rcases h with h1 | h1
    · rcases List.mem_filter.mp h1 with ⟨hmem, hpred⟩
      exact Or.inl ⟨hmem, by simpa using hpred⟩
    · exact Or.inr h1
  · intro h
    rcases h with ⟨hmem, hpred⟩ | h1
    · exact Or.inl (List.mem_filter.mpr ⟨hmem, by simp only [hpred, Bool.not_false]⟩)
    · exact Or.inr h1

/-! ### C5: preservation of entries for unchanged paths -/

/-- C5: for every path present in both the existing document and the
prefix-translated fresh document, the entries carrying that path in the
reconciled document are exactly the (byte-identical) entries of the
existing document — `description`, `exports` and `touch` included, since
whole `FileEntry` values are preserved. -/
theorem C5_preservation (e f : SemmapFile) (pre q : String)
    (hqe : q ∈ all_paths e)
    (hqf : q ∈ (all_paths f).map (prefix_path pre)) :
    (∀ ent ∈ allEntries (reconcile e f pre), ent.path = q → ent ∈ allEntries e) ∧
    (∀ ent ∈ allEntries e, ent.path = q → ent ∈ allEntries (reconcile e f pre)) := by
  constructor
  · intro ent hent hpath
    rcases (mem_allEntries_reconcile e f pre ent).mp hent with ⟨h1, _⟩ | h1
    · exact h1
    · exfalso
      rcases List.mem_map.mp h1 with ⟨pe, hpe, rfl⟩
      have hadded : pe.2.path ∈ addedPaths e f pre :=
        processedEntries_path _ f pre pe hpe
      have hpred := (List.mem_filter.mp hadded).2
      rw [hpath, (contains_iff_mem _ _).mpr hqe] at hpred
      simp at hpred
  · intro ent hent hpath
    refine (mem_allEntries_reconcile e f pre ent).mpr (Or.inl ⟨hent, ?_⟩)
    have hnotrem : ¬ ent.path ∈ removedPaths e f pre := by
      intro hmem
      have := (List.mem_filter.mp hmem).2
      rw [hpath] at this
      rw [(contains_iff_mem _ _).mpr hqf] at this
      simp at this
    cases hc : (removedPaths e f pre).contains ent.path
    · rfl
    · exact absurd ((contains_iff_mem _ _).mp hc) hnotrem

theorem C5_preservation_witness :
    "Cargo.toml" ∈ all_paths dC1 ∧
    "Cargo.toml" ∈ (all_paths fW).map (prefix_path "") ∧
    ((∀ ent ∈ allEntries (reconcile dC1 fW ""), ent.path = "Cargo.toml" →
        ent ∈ allEntries dC1) ∧
     (∀ ent ∈ allEntries dC1, ent.path = "Cargo.toml" →
        ent ∈ allEntries (reconcile dC1 fW ""))) := by
  refine ⟨by decide, by decide, ?_⟩
  exact C5_preservation dC1 fW "" "Cargo.toml" (by decide) (by decide)

/-! ### No empty layers, sortedness, and the path set of `reconcile` -/

theorem entriesFor_ne_nil (ps : List (Nat × FileEntry)) (n : Nat)
    (h : n ∈ ps.map Prod.fst) : entriesFor ps n ≠ [] := by
  rcases List.mem_map.mp h with ⟨pe, hpe, rfl⟩
  unfold entriesFor
  intro hnil
  have hmem : pe ∈ ps.filter fun x => x.1 == pe.1 :=
    List.mem_filter.mpr ⟨hpe, by simp⟩
  rw [List.map_eq_nil_iff.mp hnil] at hmem
  simp at hmem

theorem reconcile_nonempty (e f : SemmapFile) (pre : String) :
    ∀ l ∈ (reconcile e f pre).layers, l.entries ≠ [] := by
  intro l2 hl2
  unfold reconcile at hl2
  rw [add_new_entries_layers] at hl2
  rcases List.mem_map.mp hl2 with ⟨l, hl, rfl⟩
  have hl3 := (mem_isort _ _ _).mp hl
  have hgs : ∀ g ∈ (((processedEntries (addedPaths e f pre) f pre).map
      Prod.fst).dedup).map fun n =>
        (n, entriesFor (processedEntries (addedPaths e f pre) f pre) n), g.2 ≠ [] := by
    intro g hg
    rcases List.mem_map.mp hg with ⟨n, hn, rfl⟩
    exact entriesFor_ne_nil _ n (List.mem_dedup.mp hn)
  have hne := addGroups_nonempty _ _ _
    (remove_nonempty e (removedPaths e f pre)) hgs l hl3
  show isort entryLe l.entries ≠ []
  exact isort_ne_nil entryLe l.entries hne

/-- C8: no layer of a reconciled document is empty: the removal step
drops every emptied (or already empty) layer, and insertion only appends
entries or creates layers from non-empty staged groups. -/
theorem C8_no_empty_layers (e f : SemmapFile) (pre : String) :
    ((reconcile e f pre).layers.all fun l => !l.entries.isEmpty) = true := by
  apply List.all_eq_true.mpr
  intro l hl
  have hne := reconcile_nonempty e f pre l hl
  cases hc : l.entries.isEmpty
  · rfl
  · exact absurd (List.isEmpty_iff.mp hc) hne

theorem sortedBy_layerLe_map_entrySort (L : List Layer) :
    sortedBy layerLe (L.map fun l => { l with entries := isort entryLe l.entries }) =
      sortedBy layerLe L := by
  induction L with
  | nil => rfl
  | cons a L ih =>
      cases L with
      | nil => rfl
      | cons b t =>
          show (layerLe { a with entries := isort entryLe a.entries }
                  { b with entries := isort entryLe b.entries } &&
                sortedBy layerLe ((b :: t).map fun l =>
                  { l with entries := isort entryLe l.entries })) =
               (layerLe a b && sortedBy layerLe (b :: t))
          rw [ih]
          rfl

theorem reconcile_layers_sorted (e f : SemmapFile) (pre : String) :
    sortedBy layerLe (reconcile e f pre).layers = true := by
  unfold reconcile
  rw [add_new_entries_layers, sortedBy_layerLe_map_entrySort]
  exact isort_sorted layerLe layerLe_total _

theorem reconcile_entries_sorted (e f : SemmapFile) (pre : String) :
    ∀ l ∈ (reconcile e f pre).layers, sortedBy entryLe l.entries = true := by
  intro l hl
  unfold reconcile at hl
  rw [add_new_entries_layers] at hl
  rcases List.mem_map.mp hl with ⟨l0, _, rfl⟩
  show sortedBy entryLe (isort entryLe l0.entries) = true
  exact isort_sorted entryLe entryLe_total l0.entries

theorem reconcile_paths_iff (e f : SemmapFile) (pre : String) (q : String) :
    q ∈ all_paths (reconcile e f pre) ↔
      q ∈ (all_paths f).map (prefix_path pre) := by
  constructor
  · intro h
    rcases List.mem_map.mp h with ⟨ent, hent, rfl⟩
    rcases (mem_allEntries_reconcile e f pre ent).mp hent with ⟨h1, h2⟩ | h1
    · have hmemE : ent.path ∈ all_paths e := List.mem_map_of_mem _ h1
      by_contra hnf
      have hcf : ((all_paths f).map (prefix_path pre)).contains ent.path = false := by
        cases hc : ((all_paths f).map (prefix_path pre)).contains ent.path
        · rfl
        · exact absurd ((contains_iff_mem _ _).mp hc) hnf
      have hrm : ent.path ∈ removedPaths e f pre :=
        List.mem_filter.mpr ⟨hmemE, by simp only [hcf, Bool.not_false]⟩
      have := (contains_iff_mem _ _).mpr hrm
      rw [h2] at this
      exact absurd this (by simp)
    · rcases List.mem_map.mp h1 with ⟨pe, hpe, rfl⟩
      have hadded := processedEntries_path _ f pre pe hpe
      exact List.mem_dedup.mp (List.mem_of_mem_filter hadded)
  · intro h
    by_cases hq : q ∈ all_paths e
    · rcases List.mem_map.mp hq with ⟨ent, hent, rfl⟩
      have hpred : (removedPaths e f pre).contains ent.path = false := by
        cases hc : (removedPaths e f pre).contains ent.path
        · rfl
        · have hmem := (contains_iff_mem _ _).mp hc
          have h2 := (List.mem_filter.mp hmem).2
          rw [(contains_iff_mem _ _).mpr h] at h2
          simp at h2
      exact List.mem_map_of_mem _
        ((mem_allEntries_reconcile e f pre ent).mpr (Or.inl ⟨hent, hpred⟩))
    · have hadd : q ∈ addedPaths e f pre := by
        apply List.mem_filter.mpr
        refine ⟨List.mem_dedup.mpr h, ?_⟩
        have hcf : (all_paths e).contains q = false := by
          cases hc : (all_paths e).contains q
          · rfl
          · exact absurd ((contains_iff_mem _ _).mp hc) hq
        simp only [hcf, Bool.not_false]
      rcases addedPaths_processed e f pre q hadd with ⟨ent, _, hmem⟩
      have hin : ({ ent with path := q } : FileEntry) ∈ allEntries (reconcile e f pre) :=
        (mem_allEntries_reconcile e f pre _).mpr
          (Or.inr (List.mem_map_of_mem Prod.snd hmem))
      exact List.mem_map.mpr ⟨{ ent with path := q }, hin, rfl⟩

/-! ### C6: idempotence of reconciliation -/

theorem remove_deleted_nil (s : SemmapFile) (hne : ∀ l ∈ s.layers, l.entries ≠ []) :
    remove_deleted_entries s [] = s := by
  show ({ s with layers := ((s.layers.map fun l =>
    { l with entries := l.entries.filter fun e =>
        !(([] : List String).contains e.path) }).filter fun l =>
      !l.entries.isEmpty) } : SemmapFile) = s
  have hmap : ∀ L : List Layer,
      (L.map fun l =>
        { l with entries := l.entries.filter fun e =>
            !(([] : List String).contains e.path) }) = L := by
    intro L
    induction L with
    | nil => rfl
    | cons a t ih =>
        simp only [List.map_cons, ih]
        have hf : (a.entries.filter fun e =>
            !(([] : List String).contains e.path)) = a.entries :=
          List.filter_eq_self.mpr fun x _ => rfl
        rw [hf]
  have hfil : (s.layers.filter fun l => !l.entries.isEmpty) = s.layers := by
    apply List.filter_eq_self.mpr
    intro l hl
    cases hc : l.entries.isEmpty
    · rfl
    · exact absurd (List.isEmpty_iff.mp hc) (hne l hl)
  rw [hmap, hfil]

theorem add_new_entries_nil (s f : SemmapFile) (pre : String)
    (hsortL : sortedBy layerLe s.layers = true)
    (hsortE : ∀ l ∈ s.layers, sortedBy entryLe l.entries = true) :
    add_new_entries s [] f pre = s := by
  have hmap : ∀ L : List Layer, (∀ l ∈ L, sortedBy entryLe l.entries = true) →
      (L.map fun l => { l with entries := isort entryLe l.entries }) = L := by
    intro L
    induction L with
    | nil => intro _; rfl
    | cons a t ih =>
        intro hL
        simp only [List.map_cons]
        rw [ih fun l hl => hL l (List.mem_cons_of_mem _ hl),
          isort_of_sorted entryLe a.entries (hL a (List.mem_cons_self _ _))]
  have hlayers : (add_new_entries s [] f pre).layers = s.layers := by
    rw [add_new_entries_layers]
    show ((isort layerLe (addGroups s.layers s.layers [])).map fun l =>
      { l with entries := isort entryLe l.entries }) = s.layers
    show ((isort layerLe s.layers).map fun l =>
      { l with entries := isort entryLe l.entries }) = s.layers
    rw [isort_of_sorted layerLe s.layers hsortL, hmap s.layers hsortE]
  have heq : add_new_entries s [] f pre =
      { s with layers := (add_new_entries s [] f pre).layers } := rfl
  rw [heq, hlayers]

/-- C6: reconciliation is idempotent — a second run against the same
fresh document and prefix reproduces the first run's output exactly: the
path difference is then empty, the removal pass finds no empty layer to
prune, and both sorts find their inputs already sorted. -/
theorem C6_reconcile_idempotent (e f : SemmapFile) (pre : String) :
    reconcile (reconcile e f pre) f pre = reconcile e f pre := by
  have hrem : removedPaths (reconcile e f pre) f pre = [] := by
    unfold removedPaths
    apply List.filter_eq_nil_iff.mpr
    intro q hq
    have hmem := (reconcile_paths_iff e f pre q).mp hq
    have hc : ((all_paths f).map (prefix_path pre)).contains q = true :=
      (contains_iff_mem _ _).mpr hmem
    simp only [hc]
    decide
  have hadd : addedPaths (reconcile e f pre) f pre = [] := by
    unfold addedPaths
    apply List.filter_eq_nil_iff.mpr
    intro q hq
    have hin := (reconcile_paths_iff e f pre q).mpr (List.mem_dedup.mp hq)
    have hc : (all_paths (reconcile e f pre)).contains q = true :=
      (contains_iff_mem _ _).mpr hin
    simp only [hc]
    decide
  calc reconcile (reconcile e f pre) f pre
      = add_new_entries
          (remove_deleted_entries (reconcile e f pre)
            (removedPaths (reconcile e f pre) f pre))
          (addedPaths (reconcile e f pre) f pre) f pre := rfl
    _ = add_new_entries (remove_deleted_entries (reconcile e f pre) []) [] f pre := by
        rw [hrem, hadd]
    _ = add_new_entries (reconcile e f pre) [] f pre := by
        rw [remove_deleted_nil _ (reconcile_nonempty e f pre)]
    _ = reconcile e f pre :=
        add_new_entries_nil _ f pre (reconcile_layers_sorted e f pre)
          (reconcile_entries_sorted e f pre)

/-! ### C7: layer-count bounds -/

theorem hasPath_entries_filter (a : Layer) (p : FileEntry → Bool) (q : String)
    (h : hasPath { a with entries := a.entries.filter p } q = true) :
    hasPath a q = true := by
  unfold hasPath at h ⊢
  rcases List.any_eq_true.mp h with ⟨x, hx, hpx⟩
  exact List.any_eq_true.mpr ⟨x, List.mem_of_mem_filter hx, hpx⟩

theorem countP_remove_le (s : SemmapFile) (removed : List String) (q : String) :
    ((remove_deleted_entries s removed).layers.countP fun l => hasPath l q) ≤
      s.layers.countP fun l => hasPath l q := by
  show (((s.layers.map fun l =>
      { l with entries := l.entries.filter fun e => !(removed.contains e.path) }).filter
        fun l => !l.entries.isEmpty).countP fun l => hasPath l q) ≤ _
  induction s.layers with
  | nil => simp
  | cons a t ih =>
      simp only [List.map_cons, List.filter_cons]
      split
      · rw [List.countP_cons, List.countP_cons]
        have hmono : (if hasPath { a with entries := List.filter (fun e => !removed.contains e.path) a.entries } q then 1 else 0) ≤ (if hasPath a q then 1 else 0) := by
          by_cases hpa : hasPath { a with entries := List.filter (fun e => !removed.contains e.path) a.entries } q = true
          · rw [if_pos hpa, if_pos (hasPath_entries_filter a _ q hpa)]
          · rw [if_neg hpa]
            split <;> omega
        omega
      · rw [List.countP_cons]
        omega

theorem ite_or_le (a b : Bool) :
    (if (a || b) = true then 1 else 0) ≤
      (if a = true then 1 else 0) + (if b = true then 1 else 0) := by
  cases a <;> cases b <;> simp

theorem hasPath_append (l : Layer) (es : List FileEntry) (q : String) :
    hasPath { l with entries := l.entries ++ es } q =
      (hasPath l q || es.any fun ent => ent.path == q) := by
  unfold hasPath
  exact List.any_append

theorem countP_extendLast_le (n : Nat) (es : List FileEntry) (ls : List Layer)
    (q : String) :
    ((extendLast n es ls).countP fun l => hasPath l q) ≤
      (ls.countP fun l => hasPath l q) +
      (if (es.any fun ent => ent.path == q) = true then 1 else 0) := by
  induction ls with
  | nil => simp [extendLast]
  | cons l t ih =>
      unfold extendLast
      split
      · rw [List.countP_cons, List.countP_cons]
        have h1 := ite_or_le (hasPath l q) (es.any fun ent => ent.path == q)
        have h2 : (if hasPath { l with entries := l.entries ++ es } q then 1 else 0) =
            (if (hasPath l q || es.any fun ent => ent.path == q) = true then 1 else 0) := by
          rw [hasPath_append]
        omega
      · rw [List.countP_cons, List.countP_cons]
        omega

theorem countP_addGroups_le (orig : List Layer) (gs : List (Nat × List FileEntry)) :
    ∀ acc q, ((addGroups orig acc gs).countP fun l => hasPath l q) ≤
      (acc.countP fun l => hasPath l q) +
      gs.countP fun g => g.2.any fun ent => ent.path == q := by
  induction gs with
  | nil => intro acc q; simp [addGroups]
  | cons g0 gs ih =>
      intro acc q
      obtain ⟨n, es⟩ := g0
      unfold addGroups
      rw [List.countP_cons]
      have hred : (((n, es) : Nat × List FileEntry).2.any fun ent => ent.path == q) =
          (es.any fun ent => ent.path == q) := rfl
      rw [hred]
      split
      · have h1 := ih (extendLast n es acc) q
        have h2 := countP_extendLast_le n es acc q
        show ((addGroups orig (extendLast n es acc) gs).countP fun l => hasPath l q) ≤ _
        omega
      · have h1 := ih (acc ++ [⟨n, "Layer " ++ toString n, es⟩]) q
        have h2 : ((acc ++ [(⟨n, "Layer " ++ toString n, es⟩ : Layer)]).countP
            fun l => hasPath l q) =
            (acc.countP fun l => hasPath l q) +
            (if (es.any fun ent => ent.path == q) = true then 1 else 0) := by
          rw [List.countP_append]
          congr 1
          show ([(⟨n, "Layer " ++ toString n, es⟩ : Layer)].countP
            fun l => hasPath l q) = _
          rw [List.countP_cons]
          simp [hasPath]
        omega

theorem countP_nat_le_one (l : List Nat) (p : Nat → Bool) (hnd : l.Nodup)
    (huni : ∀ a b, a ∈ l → b ∈ l → p a = true → p b = true → a = b) :
    l.countP p ≤ 1 := by
  induction l with
  | nil => simp
  | cons a t ih =>
      rw [List.countP_cons]
      by_cases hpa : p a = true
      · have hzero : t.countP p = 0 := by
          apply List.countP_eq_zero.mpr
          intro b hb hpb
          have hab : a = b := huni a b (List.mem_cons_self _ _)
            (List.mem_cons_of_mem _ hb) hpa hpb
          exact (List.nodup_cons.mp hnd).1 (hab ▸ hb)
        simp [hzero, hpa]
      · have := ih (List.nodup_cons.mp hnd).2 fun x y hx hy hpx hpy =>
          huni x y (List.mem_cons_of_mem _ hx) (List.mem_cons_of_mem _ hy) hpx hpy
        simp [hpa]
        omega

theorem isort_any (le : α → α → Bool) (xs : List α) (p : α → Bool) :
    (isort le xs).any p = xs.any p := by
  by_cases hx : xs.any p = true
  · rw [hx]
    rcases List.any_eq_true.mp hx with ⟨a, ha, hpa⟩
    exact List.any_eq_true.mpr ⟨a, (mem_isort _ _ _).mpr ha, hpa⟩
  · cases hres : (isort le xs).any p
    · cases hy : xs.any p
      · rfl
      · exact absurd hy hx
    · rcases List.any_eq_true.mp hres with ⟨a, ha, hpa⟩
      exact absurd (List.any_eq_true.mpr ⟨a, (mem_isort _ _ _).mp ha, hpa⟩) hx

theorem countP_reconcile_eq (e f : SemmapFile) (pre : String) (q : String) :
    ((reconcile e f pre).layers.countP fun l => hasPath l q) =
      ((addGroups (remove_deleted_entries e (removedPaths e f pre)).layers
        (remove_deleted_entries e (removedPaths e f pre)).layers
        ((((processedEntries (addedPaths e f pre) f pre).map Prod.fst).dedup).map fun n =>
          (n, entriesFor (processedEntries (addedPaths e f pre) f pre) n))).countP
        fun l => hasPath l q) := by
  show ((add_new_entries (remove_deleted_entries e (removedPaths e f pre))
      (addedPaths e f pre) f pre).layers.countP fun l => hasPath l q) = _
  rw [add_new_entries_layers, List.countP_map]
  have hcomp : ((fun l => hasPath l q) ∘ fun l : Layer =>
      { l with entries := isort entryLe l.entries }) = fun l => hasPath l q := by
    funext l
    show hasPath { l with entries := isort entryLe l.entries } q = hasPath l q
    unfold hasPath
    exact isort_any entryLe l.entries _
  rw [hcomp]
  exact (isort_perm layerLe _).countP_eq _

/-- C7 (amended): provided no path occurs in more than one layer of the
*existing* document, no path occurs in more than one layer of the
reconciled document.  (The unrestricted claim is false: duplicates
already present in the existing document survive, see the
counterexample.) -/
theorem C7_unique_layer_amended (e f : SemmapFile) (pre : String)
    (h : ∀ q ∈ all_paths e, (e.layers.countP fun l => hasPath l q) ≤ 1) :
    ∀ q, ((reconcile e f pre).layers.countP fun l => hasPath l q) ≤ 1 := by
  intro q
  rw [countP_reconcile_eq]
  have hle := countP_addGroups_le
    (remove_deleted_entries e (removedPaths e f pre)).layers
    ((((processedEntries (addedPaths e f pre) f pre).map Prod.fst).dedup).map fun n =>
      (n, entriesFor (processedEntries (addedPaths e f pre) f pre) n))
    (remove_deleted_entries e (removedPaths e f pre)).layers q
  by_cases hex : ∃ pe ∈ processedEntries (addedPaths e f pre) f pre, pe.2.path = q
  · rcases hex with ⟨pq, hpq, hpath⟩
    have hqadded : q ∈ addedPaths e f pre :=
      hpath ▸ processedEntries_path _ _ _ pq hpq
    have hqnotE : q ∉ all_paths e := by
      intro hmem
      have h2 := (List.mem_filter.mp hqadded).2
      rw [(contains_iff_mem _ _).mpr hmem] at h2
      simp at h2
    have hE1zero : ((remove_deleted_entries e (removedPaths e f pre)).layers.countP
        fun l => hasPath l q) = 0 := by
      apply List.countP_eq_zero.mpr
      intro l hl hbad
      rcases List.any_eq_true.mp hbad with ⟨ent, hent, hbeq⟩
      have hinE := remove_layers_entries_sub e _ l hl ent hent
      have : ent.path = q := by simpa using hbeq
      exact hqnotE (this ▸ List.mem_map_of_mem _ hinE)
    have hgroups : (((((processedEntries (addedPaths e f pre) f pre).map
        Prod.fst).dedup).map fun n =>
          (n, entriesFor (processedEntries (addedPaths e f pre) f pre) n)).countP
        fun g => g.2.any fun ent => ent.path == q) ≤ 1 := by
      rw [List.countP_map]
      apply countP_nat_le_one _ _ (List.nodup_dedup _)
      intro n1 n2 _ _ hp1 hp2
      rcases List.any_eq_true.mp hp1 with ⟨x1, hx1, hbeq1⟩
      rcases List.any_eq_true.mp hp2 with ⟨x2, hx2, hbeq2⟩
      rcases List.mem_map.mp hx1 with ⟨pe1, hpe1, rfl⟩
      rcases List.mem_map.mp hx2 with ⟨pe2, hpe2, rfl⟩
      have hf1 := List.mem_filter.mp hpe1
      have hf2 := List.mem_filter.mp hpe2
      have hn1 : pe1.1 = n1 := by simpa using hf1.2
      have hn2 : pe2.1 = n2 := by simpa using hf2.2
      have heq : pe1 = pe2 := by
        apply processedEntries_unique (addedPaths e f pre) f pre pe1 pe2 hf1.1 hf2.1
        have e1 : pe1.2.path = q := by simpa using hbeq1
        have e2 : pe2.2.path = q := by simpa using hbeq2
        rw [e1, e2]
      rw [← hn1, ← hn2, heq]
    omega
  · have hgroups : (((((processedEntries (addedPaths e f pre) f pre).map
        Prod.fst).dedup).map fun n =>
          (n, entriesFor (processedEntries (addedPaths e f pre) f pre) n)).countP
        fun g => g.2.any fun ent => ent.path == q) = 0 := by
      apply List.countP_eq_zero.mpr
      intro g hg hbad
      rcases List.any_eq_true.mp hbad with ⟨x, hx, hbeq⟩
      rcases List.mem_map.mp hg with ⟨n, _, rfl⟩
      rcases List.mem_map.mp hx with ⟨pe, hpe, rfl⟩
      exact hex ⟨pe, List.mem_of_mem_filter hpe, by simpa using hbeq⟩
    have hE1le := countP_remove_le e (removedPaths e f pre) q
    by_cases hq : q ∈ all_paths e
    · have := h q hq
      omega
    · have hEzero : (e.layers.countP fun l => hasPath l q) = 0 := by
        apply List.countP_eq_zero.mpr
        intro l hl hbad
        rcases List.any_eq_true.mp hbad with ⟨ent, hent, hbeq⟩
        have : ent ∈ allEntries e := (mem_layersEntries e.layers ent).mpr ⟨l, hl, hent⟩
        have hpq : ent.path = q := by simpa using hbeq
        exact hq (hpq ▸ List.mem_map_of_mem _ this)
      omega

theorem C7_unique_layer_witness :
    (∀ q ∈ all_paths dC1, (dC1.layers.countP fun l => hasPath l q) ≤ 1) ∧
    ∀ q, ((reconcile dC1 fW "").layers.countP fun l => hasPath l q) ≤ 1 :=
  ⟨by decide, C7_unique_layer_amended dC1 fW "" (by decide)⟩

/-! ### C9: placement of added entries -/

/-- C9: each added path's cloned fresh entry is inserted into a layer
whose number is the entry's originating layer number in the fresh
document (`targetLayer`); when no post-removal layer carries that number
the layer holding it has the default name `"Layer <N>"`; and the result's
layers are sorted ascending by number with each layer's entries sorted by
path. -/
theorem C9_insertion_placement (e f : SemmapFile) (pre α : String)
    (hα : α ∈ addedPaths e f pre) :
    sortedBy layerLe (reconcile e f pre).layers = true ∧
    (∀ l ∈ (reconcile e f pre).layers, sortedBy entryLe l.entries = true) ∧
    ∃ l ∈ (reconcile e f pre).layers,
      l.number = targetLayer f pre α ∧
      (l.entries.any fun ent => ent.path == α) = true ∧
      (((remove_deleted_entries e (removedPaths e f pre)).layers.any fun l2 =>
          l2.number == targetLayer f pre α) = false →
        l.name = "Layer " ++ toString (targetLayer f pre α)) := by
  refine ⟨reconcile_layers_sorted e f pre, reconcile_entries_sorted e f pre, ?_⟩
  rcases addedPaths_processed e f pre α hα with ⟨ent, _, hpe⟩
  have hkey : targetLayer f pre α ∈
      ((processedEntries (addedPaths e f pre) f pre).map Prod.fst).dedup :=
    List.mem_dedup.mpr (List.mem_map.mpr ⟨_, hpe, rfl⟩)
  have hgroup : (targetLayer f pre α,
      entriesFor (processedEntries (addedPaths e f pre) f pre) (targetLayer f pre α)) ∈
      (((processedEntries (addedPaths e f pre) f pre).map Prod.fst).dedup).map fun n =>
        (n, entriesFor (processedEntries (addedPaths e f pre) f pre) n) :=
    List.mem_map_of_mem _ hkey
  have hentg : ({ ent with path := α } : FileEntry) ∈
      entriesFor (processedEntries (addedPaths e f pre) f pre) (targetLayer f pre α) := by
    apply List.mem_map.mpr
    exact ⟨(targetLayer f pre α, { ent with path := α }),
      List.mem_filter.mpr ⟨hpe, by simp⟩, rfl⟩
  have hnodup : (((((processedEntries (addedPaths e f pre) f pre).map
      Prod.fst).dedup).map fun n =>
        (n, entriesFor (processedEntries (addedPaths e f pre) f pre) n)).map
        Prod.fst).Nodup := by
    rw [List.map_map]
    have hid : (Prod.fst ∘ fun n : Nat =>
        (n, entriesFor (processedEntries (addedPaths e f pre) f pre) n)) = id := rfl
    rw [hid, List.map_id]
    exact List.nodup_dedup _
  rcases addGroups_places (remove_deleted_entries e (removedPaths e f pre)).layers _
      (remove_deleted_entries e (removedPaths e f pre)).layers (fun m hm => hm) hnodup
      (targetLayer f pre α) _ hgroup with ⟨l, hl, hnum, hsub, hname⟩
  refine ⟨{ l with entries := isort entryLe l.entries }, ?_, hnum, ?_, fun hfb => hname hfb⟩
  · show _ ∈ (reconcile e f pre).layers
    unfold reconcile
    rw [add_new_entries_layers]
    exact List.mem_map_of_mem _ ((mem_isort _ _ _).mpr hl)
  · show (isort entryLe l.entries).any (fun ent2 => ent2.path == α) = true
    rw [isort_any]
    exact List.any_eq_true.mpr ⟨_, hsub _ hentg, by simp⟩

theorem C9_insertion_witness :
    "lib.rs" ∈ addedPaths dC1 fW "" ∧
    (sortedBy layerLe (reconcile dC1 fW "").layers = true ∧
     (∀ l ∈ (reconcile dC1 fW "").layers, sortedBy entryLe l.entries = true) ∧
     ∃ l ∈ (reconcile dC1 fW "").layers,
       l.number = targetLayer fW "" "lib.rs" ∧
       (l.entries.any fun ent => ent.path == "lib.rs") = true ∧
       (((remove_deleted_entries dC1 (removedPaths dC1 fW "")).layers.any fun l2 =>
           l2.number == targetLayer fW "" "lib.rs") = false →
         l.name = "Layer " ++ toString (targetLayer fW "" "lib.rs"))) :=
  ⟨by decide, C9_insertion_placement dC1 fW "" "lib.rs" (by decide)⟩

/-! ### C3: the only parse failure -/

theorem titleFirstJ_ne_nil (l : List Char) (cap : List Char)
    (h : titleFirstJ l = some cap) : cap ≠ [] := by
  induction l generalizing cap with
  | nil => exact absurd h (by simp [titleFirstJ])
  | cons c v ih =>
      unfold titleFirstJ at h
      split at h
      · cases h
        simp
      · rcases Option.map_eq_some'.mp h with ⟨cap2, _, rfl⟩
        simp

theorem titleSearch_ne_nil (t : List Char) (i : Nat) (cap : List Char)
    (h : titleSearch t i = some cap) : cap ≠ [] := by
  induction i with
  | zero => exact absurd h (by simp [titleSearch])
  | succ i ih =>
      unfold titleSearch at h
      split at h
      · rename_i heq
        cases h
        exact titleFirstJ_ne_nil _ _ heq
      · exact ih h

theorem titleCapture_ne_empty (l : String) (s : String)
    (h : titleCapture l = some s) : s ≠ "" := by
  unfold titleCapture at h
  split at h
  · rcases Option.map_eq_some'.mp h with ⟨cap, hcap, rfl⟩
    have hne := titleSearch_ne_nil _ _ _ hcap
    intro hcon
    exact hne (congrArg String.data hcon)
  · exact absurd h (by simp)

theorem headerLoop_empty_iff (ls : List String) (n p : String) :
    (headerLoop ls n p).1 = "" ↔
      (n = "" ∧ ∀ l ∈ takeThroughLegend ls, titleCapture l = none) := by
  induction ls generalizing n p with
  | nil => simp [headerLoop, takeThroughLegend]
  | cons l ls ih =>
      unfold headerLoop takeThroughLegend
      by_cases hleg : strStartsWith "## Legend" l = true
      · rw [if_pos hleg, if_pos hleg]
        cases hc : titleCapture l with
        | none => simp [hc]
        | some s =>
            have := titleCapture_ne_empty l s hc
            simp [hc, this]
      · rw [if_neg hleg, if_neg hleg]
        rw [ih]
        cases hc : titleCapture l with
        | none => simp [hc]
        | some s =>
            have := titleCapture_ne_empty l s hc
            simp [hc, this]

/-- C3 (amended): `parse` fails if and only if no line *scanned by the
header phase* — the lines up to and including the first `"## Legend"`
line — matches the title pattern; the failure always carries line number
1 and the missing-title message, and on every other input `parse`
succeeds.  (As originally stated — "no line of the whole text" — the
claim is false: a title line occurring after a `"## Legend"` line is
never scanned, see the counterexample.) -/
theorem C3_parse_error_iff (text : String) :
    (parse text = .error ⟨1, "Missing project title (# name — Semantic Map)"⟩ ↔
      ∀ l ∈ takeThroughLegend (toLines text), titleCapture l = none) ∧
    (∀ err : ParseError, parse text = .error err →
      err = ⟨1, "Missing project title (# name — Semantic Map)"⟩) := by
  have hmain : (parse text =
        .error ⟨1, "Missing project title (# name — Semantic Map)"⟩ ∧
        (headerLoop (toLines text) "" "").1 = "") ∨
      ((∃ d, parse text = .ok d) ∧
        ¬ (headerLoop (toLines text) "" "").1 = "") := by
    by_cases h : (headerLoop (toLines text) "" "").1 = ""
    · left
      refine ⟨?_, h⟩
      have hph : parse_header (toLines text) =
          .error ⟨1, "Missing project title (# name — Semantic Map)"⟩ := by
        show (if (headerLoop (toLines text) "" "").1 = ""
            then (.error ⟨1, "Missing project title (# name — Semantic Map)"⟩ :
              Except ParseError (String × String × List String))
            else .ok (headerLoop (toLines text) "" "")) =
          .error ⟨1, "Missing project title (# name — Semantic Map)"⟩
        rw [if_pos h]
      show (match parse_header (toLines text) with
            | .error e => (.error e : Except ParseError SemmapFile)
            | .ok (n, p, rest) =>
                .ok ⟨n, p, (parse_legend rest).1,
                  parse_layers ((parse_legend rest).2.length + 1)
                    (parse_legend rest).2⟩) =
          .error ⟨1, "Missing project title (# name — Semantic Map)"⟩
      rw [hph]
    · right
      refine ⟨?_, h⟩
      have hph : parse_header (toLines text) =
          .ok (headerLoop (toLines text) "" "") := by
        show (if (headerLoop (toLines text) "" "").1 = ""
            then (.error ⟨1, "Missing project title (# name — Semantic Map)"⟩ :
              Except ParseError (String × String × List String))
            else .ok (headerLoop (toLines text) "" "")) =
          .ok (headerLoop (toLines text) "" "")
        rw [if_neg h]
      refine ⟨⟨(headerLoop (toLines text) "" "").1,
        (headerLoop (toLines text) "" "").2.1,
        (parse_legend (headerLoop (toLines text) "" "").2.2).1,
        parse_layers
          ((parse_legend (headerLoop (toLines text) "" "").2.2).2.length + 1)
          (parse_legend (headerLoop (toLines text) "" "").2.2).2⟩, ?_⟩
      show (match parse_header (toLines text) with
            | .error e => (.error e : Except ParseError SemmapFile)
            | .ok (n, p, rest) =>
                .ok ⟨n, p, (parse_legend rest).1,
                  parse_layers ((parse_legend rest).2.length + 1)
                    (parse_legend rest).2⟩) = _
      rw [hph]
  constructor
  · constructor
    · intro herr
      rcases hmain with ⟨_, hcond⟩ | ⟨⟨d, hok⟩, _⟩
      · exact ((headerLoop_empty_iff (toLines text) "" "").mp hcond).2
      · rw [hok] at herr
        exact absurd herr (by simp)
    · intro hall
      rcases hmain with ⟨herr, _⟩ | ⟨_, hno⟩
      · exact herr
      · exact absurd
          ((headerLoop_empty_iff (toLines text) "" "").mpr ⟨rfl, hall⟩) hno
  · intro err herr
    rcases hmain with ⟨herr2, _⟩ | ⟨⟨d, hok⟩, _⟩
    · rw [herr2] at herr
      injection herr with h1
      exact h1.symm
    · rw [hok] at herr
      exact absurd herr (by simp)

theorem C3_amended_witness :
    parse "## Legend" =
      .error ⟨1, "Missing project title (# name — Semantic Map)"⟩ :=
  (C3_parse_error_iff "## Legend").1.mpr (by decide)

end Semmap
